import Mathlib

/-!
Verification of the manifold library of this repository against its
specification.  The embedded code is `SphericalManifold::get_new_point`
(both the quadrature overload, whose body is in
include/deal.II/grid/manifold_lib.h, and the pairwise geodesic blend),
together with the construction-time inverse check of `FunctionManifold`.

Machine doubles are embedded as elements of a linear ordered field
(instantiated at `ℚ` for executable witnesses and at `ℝ` for the
geometric theorems); the pairwise blend on a point type `V` is kept
abstract where only the reduction loop is under study.
-/

universe u v

/-- Embedding of the reduction loop of
`SphericalManifold::get_new_point(const Quadrature &)`
(manifold_lib.h, lines 189-201).  State: running point `p`, running
weight `w`.  For each subsequent pair `(q, wq)`: if the running weight
is nonzero, the running point is blended against `q` with blend factor
`w / (wq + w)`; otherwise `q` is taken outright; in both cases the
weight `wq` is then accumulated into `w`. -/
def getNewPointLoop {K : Type u} {V : Type v} [LinearOrderedField K]
    (blend : V → V → K → V) : V → K → List (V × K) → V
  | p, _, [] => p
  | p, w, (q, wq) :: rest =>
    if w ≠ 0 then getNewPointLoop blend (blend p q (w / (wq + w))) (w + wq) rest
    else getNewPointLoop blend q (w + wq) rest

/-- Sum of the weights of a quadrature, as accumulated by
`std::accumulate(quad.get_weights().begin(), quad.get_weights().end(), 0.0)`. -/
def quadWeightSum {K : Type u} {V : Type v} [LinearOrderedField K]
    (quad : List (V × K)) : K :=
  (quad.map Prod.snd).sum

/-- Embedding of `SphericalManifold::get_new_point(const Quadrature &)`
(manifold_lib.h, lines 179-202).  The two `Assert` statements (nonempty
quadrature; weights summing to 1 within 1e-10) are modelled as `none`
(a fatal assertion failure of the call); otherwise the reduction loop
runs, seeded with the first point and its weight. -/
def get_new_point_quad {K : Type u} {V : Type v} [LinearOrderedField K]
    (blend : V → V → K → V) (quad : List (V × K)) : Option V :=
  match quad with
  | [] => none
  | (p, w) :: rest =>
    if |quadWeightSum ((p, w) :: rest) - 1| < 1 / 10 ^ 10 then
      some (getNewPointLoop blend p w rest)
    else none

/-- Instrumentation of the reduction loop: the list of
(numerator, denominator) pairs of the divisions `w / (wq + w)` the loop
performs, in order.  A division is recorded exactly when the running
weight `w` is nonzero, mirroring the branch in `getNewPointLoop`. -/
def blendFactorSteps {K : Type u} {V : Type v} [LinearOrderedField K] :
    K → List (V × K) → List (K × K)
  | _, [] => []
  | w, (_, wq) :: rest =>
    if w ≠ 0 then (w, wq + w) :: blendFactorSteps (w + wq) rest
    else blendFactorSteps (w + wq) rest

/-- Exact linear interpolation `a + t (b - a)`: the two-point blend in
the limit of points close together, satisfying the boundary-weight
convention `linBlend a b 0 = a` and `linBlend a b 1 = b` of the spec. -/
def linBlend {K : Type u} {V : Type v} [LinearOrderedField K]
    [AddCommGroup V] [Module K V] (a b : V) (t : K) : V :=
  a + t • (b - a)

/-- Helper: with a nonnegative running weight and nonnegative quadrature
weights, every division recorded by the loop has a positive numerator
(the running weight at that step) bounded by its positive denominator. -/
theorem blendFactorSteps_bounds {K : Type u} {V : Type v}
    [LinearOrderedField K] :
    ∀ (l : List (V × K)) (w : K), 0 ≤ w → (∀ x ∈ l, 0 ≤ x.2) →
      ∀ s ∈ blendFactorSteps w l, 0 < s.1 ∧ s.1 ≤ s.2
  | [], _, _, _, s, hs => by simp [blendFactorSteps] at hs
  | (q, wq) :: rest, w, hw, hl, s, hs => by
    have hwq : 0 ≤ wq := hl (q, wq) (List.mem_cons_self _ _)
    have hrest : ∀ x ∈ rest, 0 ≤ x.2 := fun x hx => hl x (List.mem_cons_of_mem _ hx)
    by_cases hw0 : w ≠ 0
    · rw [blendFactorSteps, if_pos hw0] at hs
      rcases List.mem_cons.mp hs with h | h
      · subst h
        refine ⟨lt_of_le_of_ne hw (Ne.symm hw0), ?_⟩
        show w ≤ wq + w
        linarith
      · exact blendFactorSteps_bounds rest (w + wq) (by linarith) hrest s h
    · rw [blendFactorSteps, if_neg hw0] at hs
      exact blendFactorSteps_bounds rest (w + wq) (by linarith) hrest s hs

/-- Claim C1 (code evaluation): on the two-point quadrature with points
0 and 1 and weights 1/4 and 3/4, with the blend being exact linear
interpolation, the code returns 1/4 — the second point receives
influence 1/4 (the first weight), not its own weight 3/4, so the result
is not the weighted average (1/4)·0 + (3/4)·1 = 3/4 required by the
spec.  The loop passes blend factor w/(wq + w) built from the running
weight w instead of the incoming weight wq. -/
theorem c1_quadrature_average_eval :
    get_new_point_quad (linBlend (K := ℚ) (V := ℚ))
      [(0, 1 / 4), (1, 3 / 4)] = some (1 / 4) ∧
    ((1 : ℚ) / 4) * 0 + ((3 : ℚ) / 4) * 1 = 3 / 4 ∧
    some ((1 : ℚ) / 4) ≠ some ((3 : ℚ) / 4) := by
  refine ⟨?_, by norm_num, by norm_num⟩
  have h : |quadWeightSum ((((0 : ℚ), (1 : ℚ) / 4)) :: [((1 : ℚ), (3 : ℚ) / 4)]) - 1|
      < 1 / 10 ^ 10 := by
    norm_num [quadWeightSum]
  rw [get_new_point_quad, if_pos h]
  norm_num [getNewPointLoop, linBlend]

/-- Claim C3: the call fails fast (modelled as `none`, a fatal assertion
failure) on an empty weighted point set and on weights whose sum is not
within 1e-10 of 1; such inputs never produce a silently corrected
result. -/
theorem c3_precondition_fail_fast {K : Type u} {V : Type v}
    [LinearOrderedField K] (blend : V → V → K → V) (quad : List (V × K))
    (h : quad = [] ∨ ¬ |quadWeightSum quad - 1| < 1 / 10 ^ 10) :
    get_new_point_quad blend quad = none := by
  match quad with
  | [] => rfl
  | (p, w) :: rest =>
    rcases h with h | h
    · exact absurd h (List.cons_ne_nil _ _)
    · rw [get_new_point_quad, if_neg h]

/-- Claim C3 witness: a one-point quadrature whose weight sum is 1/2 is
rejected. -/
theorem c3_witness :
    get_new_point_quad (linBlend (K := ℚ) (V := ℚ)) [(0, 1 / 2)] = none :=
  c3_precondition_fail_fast _ _ (Or.inr (by norm_num [quadWeightSum, abs_of_pos]))

/-- Claim C4: when the running weight is zero as the next point is
reached, that point is taken outright (no blend is invoked and no
division is recorded for that step), and with nonnegative weights every
division the loop does record has a nonzero (indeed positive)
denominator, so no division by zero ever occurs. -/
theorem c4_zero_running_weight {K : Type u} {V : Type v}
    [LinearOrderedField K] (blend : V → V → K → V) (p q : V) (wq : K)
    (rest : List (V × K)) (hwq : 0 ≤ wq) (hrest : ∀ x ∈ rest, 0 ≤ x.2) :
    getNewPointLoop blend p 0 ((q, wq) :: rest) =
      getNewPointLoop blend q (0 + wq) rest ∧
    blendFactorSteps (V := V) 0 ((q, wq) :: rest) =
      blendFactorSteps (V := V) (0 + wq) rest ∧
    ∀ s ∈ blendFactorSteps (V := V) (0 : K) ((q, wq) :: rest), s.2 ≠ 0 := by
  refine ⟨by rw [getNewPointLoop, if_neg (by simp)],
          by rw [blendFactorSteps, if_neg (by simp)], ?_⟩
  intro s hs
  rw [blendFactorSteps, if_neg (by simp)] at hs
  have h := blendFactorSteps_bounds rest (0 + wq) (by linarith) hrest s hs
  exact ne_of_gt (lt_of_lt_of_le h.1 h.2)

/-- Claim C4 witness: concrete quadrature tail over ℚ with zero running
weight; the point 7 is taken outright and the single recorded division
(at the following step) has denominator 3/2 ≠ 0. -/
theorem c4_witness :
    getNewPointLoop (linBlend (K := ℚ) (V := ℚ)) 5 0 [(7, 1), (9, 1 / 2)] =
      getNewPointLoop (linBlend (K := ℚ) (V := ℚ)) 7 (0 + 1) [(9, 1 / 2)] ∧
    ((1 : ℚ), (3 : ℚ) / 2).2 ≠ 0 := by
  have h := c4_zero_running_weight (linBlend (K := ℚ) (V := ℚ)) 5 7 1
    [((9 : ℚ), (1 : ℚ) / 2)] (by norm_num) (by norm_num)
  refine ⟨h.1, h.2.2 (1, 3 / 2) ?_⟩
  norm_num [blendFactorSteps]

/-- Claim C8: a quadrature holding exactly one point (whose weight
passes the sum-to-1 assertion) is returned unchanged, for every pairwise
blend function: the reduction loop body never runs. -/
theorem c8_single_point {K : Type u} {V : Type v} [LinearOrderedField K]
    (blend : V → V → K → V) (p : V) (w : K)
    (h : |w - 1| < 1 / 10 ^ 10) :
    get_new_point_quad blend [(p, w)] = some p := by
  have hs : quadWeightSum (V := V) [(p, w)] = w := by
    simp [quadWeightSum]
  rw [get_new_point_quad, if_pos (by rw [hs]; exact h)]
  rfl

/-- Claim C8 witness: the single point 3 with weight 1 is returned
unchanged. -/
theorem c8_witness :
    get_new_point_quad (linBlend (K := ℚ) (V := ℚ)) [(3, 1)] = some 3 :=
  c8_single_point _ 3 1 (by norm_num)

/-- Claim C9: with a nonnegative seed weight and nonnegative quadrature
weights, every division `w / (wq + w)` the loop performs has a strictly
positive numerator (so divisions happen only at nonzero running weight),
a strictly positive denominator, and a quotient lying in [0, 1]. -/
theorem c9_blend_factor_bounds {K : Type u} {V : Type v}
    [LinearOrderedField K] (w0 : K) (l : List (V × K)) (h0 : 0 ≤ w0)
    (hl : ∀ x ∈ l, 0 ≤ x.2) :
    ∀ s ∈ blendFactorSteps w0 l,
      0 < s.1 ∧ 0 < s.2 ∧ 0 ≤ s.1 / s.2 ∧ s.1 / s.2 ≤ 1 := by
  intro s hs
  have h := blendFactorSteps_bounds l w0 h0 hl s hs
  have h2 : 0 < s.2 := lt_of_lt_of_le h.1 h.2
  exact ⟨h.1, h2, div_nonneg (le_of_lt h.1) (le_of_lt h2),
    (div_le_one h2).mpr h.2⟩

/-- Claim C9 witness: seed weight 1/2 and one further weight 1/4 give
the single recorded division (1/2) / (3/4), whose factor lies in [0,1]
with positive denominator. -/
theorem c9_witness :
    0 < ((1 : ℚ) / 2, (3 : ℚ) / 4).1 ∧ 0 < ((1 : ℚ) / 2, (3 : ℚ) / 4).2 ∧
    0 ≤ ((1 : ℚ) / 2, (3 : ℚ) / 4).1 / ((1 : ℚ) / 2, (3 : ℚ) / 4).2 ∧
    ((1 : ℚ) / 2, (3 : ℚ) / 4).1 / ((1 : ℚ) / 2, (3 : ℚ) / 4).2 ≤ 1 :=
  c9_blend_factor_bounds (1 / 2) [((0 : ℚ), (1 : ℚ) / 4)] (by norm_num)
    (by norm_num) (1 / 2, 3 / 4) (by norm_num [blendFactorSteps])

/-- Claim C10: a point carrying weight exactly 0, reached while the
running weight w is nonzero, is blended with factor w / (0 + w) = 1;
under the boundary-weight convention blend p q 1 = q this makes the
zero-weight point replace the running result. -/
theorem c10_zero_weight_point_replaces {K : Type u} {V : Type v}
    [LinearOrderedField K] (blend : V → V → K → V) (p q : V) (w : K)
    (rest : List (V × K)) (hw : w ≠ 0) (hb : blend p q 1 = q) :
    w / (0 + w) = 1 ∧
    getNewPointLoop blend p w ((q, 0) :: rest) =
      getNewPointLoop blend q (w + 0) rest := by
  have hf : w / (0 + w) = 1 := by
    rw [zero_add]
    exact div_self hw
  refine ⟨hf, ?_⟩
  rw [getNewPointLoop, if_pos hw, hf, hb]

/-- Claim C10 witness: running point 0 with weight 1/2 meets the point 7
of weight 0; the division factor is 1 and the running point becomes 7. -/
theorem c10_witness :
    (1 : ℚ) / 2 / (0 + 1 / 2) = 1 ∧
    getNewPointLoop (linBlend (K := ℚ) (V := ℚ)) 0 (1 / 2) [(7, 0)] =
      getNewPointLoop (linBlend (K := ℚ) (V := ℚ)) 7 (1 / 2 + 0) [] :=
  c10_zero_weight_point_replaces _ 0 7 (1 / 2) [] (by norm_num)
    (by norm_num [linBlend])

/-- Three-dimensional real vector, embedding `Point<3>` of the source. -/
structure Vec3 where
  x : ℝ
  y : ℝ
  z : ℝ

namespace Vec3

noncomputable instance : Add Vec3 :=
  ⟨fun a b => ⟨a.x + b.x, a.y + b.y, a.z + b.z⟩⟩

noncomputable instance : Sub Vec3 :=
  ⟨fun a b => ⟨a.x - b.x, a.y - b.y, a.z - b.z⟩⟩

noncomputable instance : SMul ℝ Vec3 :=
  ⟨fun r a => ⟨r * a.x, r * a.y, r * a.z⟩⟩

instance : Zero Vec3 := ⟨⟨0, 0, 0⟩⟩

theorem add_x (a b : Vec3) : (a + b).x = a.x + b.x := rfl

theorem add_y (a b : Vec3) : (a + b).y = a.y + b.y := rfl

theorem add_z (a b : Vec3) : (a + b).z = a.z + b.z := rfl

theorem sub_x (a b : Vec3) : (a - b).x = a.x - b.x := rfl

theorem sub_y (a b : Vec3) : (a - b).y = a.y - b.y := rfl

theorem sub_z (a b : Vec3) : (a - b).z = a.z - b.z := rfl

theorem smul_x (r : ℝ) (a : Vec3) : (r • a).x = r * a.x := rfl

theorem smul_y (r : ℝ) (a : Vec3) : (r • a).y = r * a.y := rfl

theorem smul_z (r : ℝ) (a : Vec3) : (r • a).z = r * a.z := rfl

theorem zero_x : (0 : Vec3).x = 0 := rfl

theorem zero_y : (0 : Vec3).y = 0 := rfl

theorem zero_z : (0 : Vec3).z = 0 := rfl

theorem eq_iff (a b : Vec3) : a = b ↔ a.x = b.x ∧ a.y = b.y ∧ a.z = b.z := by
  constructor
  · rintro rfl
    exact ⟨rfl, rfl, rfl⟩
  · rintro ⟨h1, h2, h3⟩
    cases a
    cases b
    simp_all

/-- Euclidean inner product of two vectors. -/
def dot (a b : Vec3) : ℝ :=
  a.x * b.x + a.y * b.y + a.z * b.z

/-- Cross product of two vectors. -/
def cross (a b : Vec3) : Vec3 :=
  ⟨a.y * b.z - a.z * b.y, a.z * b.x - a.x * b.z, a.x * b.y - a.y * b.x⟩

/-- Euclidean norm of a vector. -/
noncomputable def norm (a : Vec3) : ℝ :=
  Real.sqrt (dot a a)

theorem dot_self_nonneg (a : Vec3) : 0 ≤ dot a a := by
  have hx := mul_self_nonneg a.x
  have hy := mul_self_nonneg a.y
  have hz := mul_self_nonneg a.z
  unfold dot
  linarith

theorem norm_nonneg (a : Vec3) : 0 ≤ norm a :=
  Real.sqrt_nonneg _

theorem norm_mul_self (a : Vec3) : norm a * norm a = dot a a :=
  Real.mul_self_sqrt (dot_self_nonneg a)

theorem dot_self_eq_zero_iff (a : Vec3) : dot a a = 0 ↔ a = 0 := by
  constructor
  · intro h
    have hx := mul_self_nonneg a.x
    have hy := mul_self_nonneg a.y
    have hz := mul_self_nonneg a.z
    unfold dot at h
    have hx0 : a.x * a.x = 0 := by linarith
    have hy0 : a.y * a.y = 0 := by linarith
    have hz0 : a.z * a.z = 0 := by linarith
    rw [eq_iff]
    exact ⟨mul_self_eq_zero.mp hx0, mul_self_eq_zero.mp hy0,
      mul_self_eq_zero.mp hz0⟩
  · rintro rfl
    simp [dot, zero_x, zero_y, zero_z]

theorem dot_self_pos (a : Vec3) (h : a ≠ 0) : 0 < dot a a :=
  lt_of_le_of_ne (dot_self_nonneg a)
    (fun he => h ((dot_self_eq_zero_iff a).mp he.symm))

theorem norm_pos (a : Vec3) (h : a ≠ 0) : 0 < norm a :=
  Real.sqrt_pos.mpr (dot_self_pos a h)

theorem norm_eq_zero_of_eq_zero (a : Vec3) (h : a = 0) : norm a = 0 := by
  subst h
  simp [norm, dot, zero_x, zero_y, zero_z]

theorem dot_comm (a b : Vec3) : dot a b = dot b a := by
  unfold dot
  ring

theorem cross_dot_left (a b : Vec3) : dot (cross a b) a = 0 := by
  unfold dot cross
  ring

theorem cross_dot_right (a b : Vec3) : dot (cross a b) b = 0 := by
  unfold dot cross
  ring

theorem lagrange (a b : Vec3) :
    dot (cross a b) (cross a b) = dot a a * dot b b - dot a b * dot a b := by
  unfold dot cross
  ring

theorem cross_smul_left (r : ℝ) (a b : Vec3) :
    cross (r • a) b = r • cross a b := by
  rw [eq_iff]
  refine ⟨?_, ?_, ?_⟩ <;> simp [cross, smul_x, smul_y, smul_z] <;> ring

theorem cross_smul_right (r : ℝ) (a b : Vec3) :
    cross a (r • b) = r • cross a b := by
  rw [eq_iff]
  refine ⟨?_, ?_, ?_⟩ <;> simp [cross, smul_x, smul_y, smul_z] <;> ring

theorem smul_zero_vec (r : ℝ) : r • (0 : Vec3) = 0 := by
  rw [eq_iff]
  simp [smul_x, smul_y, smul_z, zero_x, zero_y, zero_z]

theorem dot_smul_left (r : ℝ) (a b : Vec3) : dot (r • a) b = r * dot a b := by
  unfold dot
  simp [smul_x, smul_y, smul_z]
  ring

theorem dot_smul_right (r : ℝ) (a b : Vec3) : dot a (r • b) = r * dot a b := by
  unfold dot
  simp [smul_x, smul_y, smul_z]
  ring

theorem triple_expand (a b : Vec3) :
    cross (cross a b) a = dot a a • b - dot a b • a := by
  rw [eq_iff]
  refine ⟨?_, ?_, ?_⟩ <;>
    simp [cross, dot, smul_x, smul_y, smul_z, sub_x, sub_y, sub_z] <;> ring

theorem sub_eq_zero_iff (a b : Vec3) : a - b = 0 ↔ a = b := by
  rw [eq_iff, eq_iff]
  simp [sub_x, sub_y, sub_z, zero_x, zero_y, zero_z]
  constructor
  · rintro ⟨h1, h2, h3⟩
    exact ⟨by linarith, by linarith, by linarith⟩
  · rintro ⟨h1, h2, h3⟩
    exact ⟨by linarith, by linarith, by linarith⟩

theorem norm_smul (r : ℝ) (a : Vec3) : norm (r • a) = |r| * norm a := by
  unfold norm
  rw [dot_smul_left, dot_smul_right, ← mul_assoc, ← Real.sqrt_mul_self_eq_abs,
    Real.sqrt_mul (mul_self_nonneg r)]

end Vec3

/-- Modelled from the spec: unit vector from the manifold center toward a
point, spec section 4.3 steps 1 and 2; the body of
`SphericalManifold::get_new_point(p1, p2, w)` is not under src/, only its
declaration (manifold_lib.h lines 173-177) and the Rodrigues formula of
the class documentation. -/
noncomputable def unitFrom (c p : Vec3) : Vec3 :=
  (1 / Vec3.norm (p - c)) • (p - c)

/-- Modelled from the spec: Rodrigues rotation of the unit vector u1
toward u2 about the axis k = normalize(u1 x u2) by the angle
t * arccos(clamp(u1 . u2, -1, 1)), spec section 4.3 steps 3 to 5. -/
noncomputable def rodrigues (u1 u2 : Vec3) (t : ℝ) : Vec3 :=
  Real.cos (t * Real.arccos (max (-1) (min 1 (Vec3.dot u1 u2)))) • u1 +
    Real.sin (t * Real.arccos (max (-1) (min 1 (Vec3.dot u1 u2)))) •
      Vec3.cross ((1 / Vec3.norm (Vec3.cross u1 u2)) • Vec3.cross u1 u2) u1 +
    (Vec3.dot ((1 / Vec3.norm (Vec3.cross u1 u2)) • Vec3.cross u1 u2) u1 *
        (1 - Real.cos (t * Real.arccos (max (-1) (min 1 (Vec3.dot u1 u2)))))) •
      ((1 / Vec3.norm (Vec3.cross u1 u2)) • Vec3.cross u1 u2)

open Classical in
/-- Modelled from the spec: `SphericalManifold::get_new_point(p1, p2, w)`
(declared at manifold_lib.h lines 173-177; body not under src/), spec
section 4.3: translate relative to the center, interpolate the radii
linearly, rotate u1 toward u2 by w times the subtended angle via the
Rodrigues formula; in the degenerate case of a vanishing cross product
(parallel or antipodal directions, or a point at the singular center)
fall back deterministically to direct linear blending of the two offsets,
as the spec's documented tie-break prescribes. -/
noncomputable def sphericalBlend (c p1 p2 : Vec3) (w : ℝ) : Vec3 :=
  if Vec3.cross (unitFrom c p1) (unitFrom c p2) = 0 then
    c + ((1 - w) • (p1 - c) + w • (p2 - c))
  else
    c + (((1 - w) * Vec3.norm (p1 - c) + w * Vec3.norm (p2 - c)) •
      rodrigues (unitFrom c p1) (unitFrom c p2) w)

namespace Vec3

theorem dot_add_left (a b d : Vec3) : dot (a + b) d = dot a d + dot b d := by
  unfold dot
  simp [add_x, add_y, add_z]
  ring

theorem dot_add_right (a b d : Vec3) : dot a (b + d) = dot a b + dot a d := by
  unfold dot
  simp [add_x, add_y, add_z]
  ring

theorem add_zero_vec (a : Vec3) : a + 0 = a := by
  rw [eq_iff]
  simp [add_x, add_y, add_z, zero_x, zero_y, zero_z]

theorem zero_add_vec (a : Vec3) : 0 + a = a := by
  rw [eq_iff]
  simp [add_x, add_y, add_z, zero_x, zero_y, zero_z]

theorem zero_smul_vec (a : Vec3) : (0 : ℝ) • a = 0 := by
  rw [eq_iff]
  simp [smul_x, smul_y, smul_z, zero_x, zero_y, zero_z]

theorem one_smul_vec (a : Vec3) : (1 : ℝ) • a = a := by
  rw [eq_iff]
  simp [smul_x, smul_y, smul_z]

theorem smul_smul_vec (r s : ℝ) (a : Vec3) : r • (s • a) = (r * s) • a := by
  rw [eq_iff]
  refine ⟨?_, ?_, ?_⟩ <;> simp [smul_x, smul_y, smul_z] <;> ring

theorem add_sub_cancel_vec (d a : Vec3) : d + a - d = a := by
  rw [eq_iff]
  refine ⟨?_, ?_, ?_⟩ <;> simp [add_x, add_y, add_z, sub_x, sub_y, sub_z]

theorem center_add_offset (d p : Vec3) : d + (p - d) = p := by
  rw [eq_iff]
  refine ⟨?_, ?_, ?_⟩ <;> simp [add_x, add_y, add_z, sub_x, sub_y, sub_z]

theorem dot_expand_two (a b : ℝ) (x y : Vec3) :
    dot (a • x + b • y) (a • x + b • y) =
      a * a * dot x x + 2 * (a * b) * dot x y + b * b * dot y y := by
  unfold dot
  simp [add_x, add_y, add_z, smul_x, smul_y, smul_z]
  ring

end Vec3

/-- Helper: the unit offset of a point distinct from the center has unit
inner product with itself. -/
theorem unitFrom_dot_self (c p : Vec3) (h : p ≠ c) :
    Vec3.dot (unitFrom c p) (unitFrom c p) = 1 := by
  have hv : p - c ≠ 0 := fun hz => h ((Vec3.sub_eq_zero_iff p c).mp hz)
  have hr : 0 < Vec3.norm (p - c) := Vec3.norm_pos _ hv
  unfold unitFrom
  rw [Vec3.dot_smul_left, Vec3.dot_smul_right, ← Vec3.norm_mul_self]
  field_simp

/-- Helper: scaling the unit offset back by the radius recovers the
offset. -/
theorem norm_smul_unitFrom (c p : Vec3) (h : p ≠ c) :
    Vec3.norm (p - c) • unitFrom c p = p - c := by
  have hv : p - c ≠ 0 := fun hz => h ((Vec3.sub_eq_zero_iff p c).mp hz)
  have hr : Vec3.norm (p - c) ≠ 0 := ne_of_gt (Vec3.norm_pos _ hv)
  unfold unitFrom
  rw [Vec3.smul_smul_vec, mul_one_div, div_self hr, Vec3.one_smul_vec]

/-- Helper: for unit vectors the inner product already lies in [-1, 1],
so the clamp of the spec is the identity. -/
theorem clamp_eq_of_unit (u1 u2 : Vec3) (hu1 : Vec3.dot u1 u1 = 1)
    (hu2 : Vec3.dot u2 u2 = 1) :
    max (-1) (min 1 (Vec3.dot u1 u2)) = Vec3.dot u1 u2 := by
  have h := Vec3.dot_self_nonneg (Vec3.cross u1 u2)
  rw [Vec3.lagrange, hu1, hu2] at h
  have hle : Vec3.dot u1 u2 ≤ 1 := by nlinarith
  have hge : -1 ≤ Vec3.dot u1 u2 := by nlinarith
  rw [min_eq_right hle, max_eq_right hge]

/-- Helper: the axis is orthogonal to u1, so the third Rodrigues term
vanishes identically and the rotation reduces to a combination of u1 and
the normalized cross product of the axis with u1. -/
theorem rodrigues_reduced (u1 u2 : Vec3) (t : ℝ) :
    rodrigues u1 u2 t =
      Real.cos (t * Real.arccos (max (-1) (min 1 (Vec3.dot u1 u2)))) • u1 +
        Real.sin (t * Real.arccos (max (-1) (min 1 (Vec3.dot u1 u2)))) •
          ((1 / Vec3.norm (Vec3.cross u1 u2)) •
            Vec3.cross (Vec3.cross u1 u2) u1) := by
  unfold rodrigues
  rw [Vec3.dot_smul_left, Vec3.cross_dot_left, mul_zero, zero_mul,
    Vec3.zero_smul_vec, Vec3.add_zero_vec, Vec3.cross_smul_left]

/-- Helper: the Rodrigues rotation at t = 0 is u1 itself. -/
theorem rodrigues_zero (u1 u2 : Vec3) : rodrigues u1 u2 0 = u1 := by
  rw [rodrigues_reduced, zero_mul, Real.cos_zero, Real.sin_zero,
    Vec3.one_smul_vec, Vec3.zero_smul_vec, Vec3.add_zero_vec]

/-- Helper: for unit vectors with nonvanishing cross product the
Rodrigues rotation at t = 1 lands exactly on u2. -/
theorem rodrigues_one (u1 u2 : Vec3) (hu1 : Vec3.dot u1 u1 = 1)
    (hu2 : Vec3.dot u2 u2 = 1) (he : Vec3.cross u1 u2 ≠ 0) :
    rodrigues u1 u2 1 = u2 := by
  have h := Vec3.dot_self_nonneg (Vec3.cross u1 u2)
  rw [Vec3.lagrange, hu1, hu2] at h
  have hle : Vec3.dot u1 u2 ≤ 1 := by nlinarith
  have hge : -1 ≤ Vec3.dot u1 u2 := by nlinarith
  have hs : Real.sqrt (1 - Vec3.dot u1 u2 ^ 2) =
      Vec3.norm (Vec3.cross u1 u2) := by
    unfold Vec3.norm
    rw [Vec3.lagrange, hu1, hu2]
    congr 1
    ring
  have hsne : Vec3.norm (Vec3.cross u1 u2) ≠ 0 :=
    ne_of_gt (Vec3.norm_pos _ he)
  have hceu : Vec3.cross (Vec3.cross u1 u2) u1 =
      u2 - Vec3.dot u1 u2 • u1 := by
    rw [Vec3.triple_expand, hu1, Vec3.one_smul_vec]
  rw [rodrigues_reduced, clamp_eq_of_unit u1 u2 hu1 hu2, one_mul,
    Real.cos_arccos hge hle, Real.sin_arccos, hs, hceu, Vec3.eq_iff]
  refine ⟨?_, ?_, ?_⟩ <;>
    simp [Vec3.smul_x, Vec3.smul_y, Vec3.smul_z, Vec3.add_x, Vec3.add_y,
      Vec3.add_z, Vec3.sub_x, Vec3.sub_y, Vec3.sub_z] <;>
    field_simp

/-- Helper: the Rodrigues rotation of unit vectors about the normalized
cross-product axis is again a unit vector. -/
theorem rodrigues_unit (u1 u2 : Vec3) (t : ℝ) (hu1 : Vec3.dot u1 u1 = 1)
    (hu2 : Vec3.dot u2 u2 = 1) (he : Vec3.cross u1 u2 ≠ 0) :
    Vec3.dot (rodrigues u1 u2 t) (rodrigues u1 u2 t) = 1 := by
  have hsne : Vec3.norm (Vec3.cross u1 u2) ≠ 0 :=
    ne_of_gt (Vec3.norm_pos _ he)
  have hss := Vec3.norm_mul_self (Vec3.cross u1 u2)
  have hd1 : Vec3.dot u1
      ((1 / Vec3.norm (Vec3.cross u1 u2)) •
        Vec3.cross (Vec3.cross u1 u2) u1) = 0 := by
    rw [Vec3.dot_smul_right, Vec3.dot_comm, Vec3.cross_dot_right, mul_zero]
  have hd2 : Vec3.dot
      ((1 / Vec3.norm (Vec3.cross u1 u2)) •
        Vec3.cross (Vec3.cross u1 u2) u1)
      ((1 / Vec3.norm (Vec3.cross u1 u2)) •
        Vec3.cross (Vec3.cross u1 u2) u1) = 1 := by
    rw [Vec3.dot_smul_left, Vec3.dot_smul_right, Vec3.lagrange,
      Vec3.cross_dot_left, hu1]
    field_simp
    nlinarith [hss]
  rw [rodrigues_reduced, Vec3.dot_expand_two, hu1, hd1, hd2]
  nlinarith [Real.sin_sq_add_cos_sq
    (t * Real.arccos (max (-1) (min 1 (Vec3.dot u1 u2))))]

/-- Helper: the inner product of the Rodrigues rotation with u1 is the
cosine of the rotated angle. -/
theorem rodrigues_dot_u1 (u1 u2 : Vec3) (t : ℝ) (hu1 : Vec3.dot u1 u1 = 1)
    (hu2 : Vec3.dot u2 u2 = 1) :
    Vec3.dot (rodrigues u1 u2 t) u1 =
      Real.cos (t * Real.arccos (Vec3.dot u1 u2)) := by
  have h0 : Vec3.dot
      ((1 / Vec3.norm (Vec3.cross u1 u2)) •
        Vec3.cross (Vec3.cross u1 u2) u1) u1 = 0 := by
    rw [Vec3.dot_smul_left, Vec3.cross_dot_right, mul_zero]
  rw [rodrigues_reduced, clamp_eq_of_unit u1 u2 hu1 hu2, Vec3.dot_add_left,
    Vec3.dot_smul_left, Vec3.dot_smul_left, hu1, h0, mul_one, mul_zero,
    add_zero]

/-- Helper: the Rodrigues rotation stays in the plane spanned by u1 and
u2. -/
theorem rodrigues_span (u1 u2 : Vec3) (t : ℝ) (hu1 : Vec3.dot u1 u1 = 1) :
    ∃ a b : ℝ, rodrigues u1 u2 t = a • u1 + b • u2 := by
  have hceu : Vec3.cross (Vec3.cross u1 u2) u1 =
      u2 - Vec3.dot u1 u2 • u1 := by
    rw [Vec3.triple_expand, hu1, Vec3.one_smul_vec]
  refine ⟨Real.cos (t * Real.arccos (max (-1) (min 1 (Vec3.dot u1 u2)))) -
      Real.sin (t * Real.arccos (max (-1) (min 1 (Vec3.dot u1 u2)))) *
        Vec3.dot u1 u2 * (1 / Vec3.norm (Vec3.cross u1 u2)),
    Real.sin (t * Real.arccos (max (-1) (min 1 (Vec3.dot u1 u2)))) *
      (1 / Vec3.norm (Vec3.cross u1 u2)), ?_⟩
  rw [rodrigues_reduced, hceu, Vec3.eq_iff]
  refine ⟨?_, ?_, ?_⟩ <;>
    simp [Vec3.smul_x, Vec3.smul_y, Vec3.smul_z, Vec3.add_x, Vec3.add_y,
      Vec3.add_z, Vec3.sub_x, Vec3.sub_y, Vec3.sub_z] <;>
    ring

/-- Claim C2: away from the degenerate configuration, the pairwise blend
returns center + r·u(w) with r the linear interpolation of the two radii
and u(w) the Rodrigues rotation of u1 toward u2 by w times the subtended
angle; consequently the distance of the result from the center is the
interpolated radius, its direction subtends angle w·arccos(u1·u2) with
u1, and it lies in the plane (great circle) spanned by the two offsets. -/
theorem c2_pairwise_geodesic (c p1 p2 : Vec3) (w : ℝ) (h1 : p1 ≠ c)
    (h2 : p2 ≠ c) (hc : Vec3.cross (unitFrom c p1) (unitFrom c p2) ≠ 0)
    (hw0 : 0 ≤ w) (hw1 : w ≤ 1) :
    sphericalBlend c p1 p2 w =
      c + (((1 - w) * Vec3.norm (p1 - c) + w * Vec3.norm (p2 - c)) •
        rodrigues (unitFrom c p1) (unitFrom c p2) w) ∧
    Vec3.norm (sphericalBlend c p1 p2 w - c) =
      (1 - w) * Vec3.norm (p1 - c) + w * Vec3.norm (p2 - c) ∧
    Vec3.dot (sphericalBlend c p1 p2 w - c) (unitFrom c p1) =
      ((1 - w) * Vec3.norm (p1 - c) + w * Vec3.norm (p2 - c)) *
        Real.cos (w * Real.arccos (Vec3.dot (unitFrom c p1) (unitFrom c p2))) ∧
    ∃ a b : ℝ, sphericalBlend c p1 p2 w - c = a • (p1 - c) + b • (p2 - c) := by
  have hu1 := unitFrom_dot_self c p1 h1
  have hu2 := unitFrom_dot_self c p2 h2
  have ha : sphericalBlend c p1 p2 w =
      c + (((1 - w) * Vec3.norm (p1 - c) + w * Vec3.norm (p2 - c)) •
        rodrigues (unitFrom c p1) (unitFrom c p2) w) := by
    rw [sphericalBlend, if_neg hc]
  have hsub : sphericalBlend c p1 p2 w - c =
      ((1 - w) * Vec3.norm (p1 - c) + w * Vec3.norm (p2 - c)) •
        rodrigues (unitFrom c p1) (unitFrom c p2) w := by
    rw [ha, Vec3.add_sub_cancel_vec]
  have hrpos : 0 ≤ (1 - w) * Vec3.norm (p1 - c) + w * Vec3.norm (p2 - c) :=
    add_nonneg (mul_nonneg (by linarith) (Vec3.norm_nonneg _))
      (mul_nonneg hw0 (Vec3.norm_nonneg _))
  refine ⟨ha, ?_, ?_, ?_⟩
  · rw [hsub, Vec3.norm_smul]
    have hn1 : Vec3.norm (rodrigues (unitFrom c p1) (unitFrom c p2) w) = 1 := by
      unfold Vec3.norm
      rw [rodrigues_unit _ _ _ hu1 hu2 hc]
      exact Real.sqrt_one
    rw [hn1, mul_one, abs_of_nonneg hrpos]
  · rw [hsub, Vec3.dot_smul_left, rodrigues_dot_u1 _ _ _ hu1 hu2]
  · obtain ⟨a, b, hab⟩ := rodrigues_span (unitFrom c p1) (unitFrom c p2) w hu1
    refine ⟨((1 - w) * Vec3.norm (p1 - c) + w * Vec3.norm (p2 - c)) * a *
        (1 / Vec3.norm (p1 - c)),
      ((1 - w) * Vec3.norm (p1 - c) + w * Vec3.norm (p2 - c)) * b *
        (1 / Vec3.norm (p2 - c)), ?_⟩
    rw [hsub, hab]
    unfold unitFrom
    rw [Vec3.eq_iff]
    refine ⟨?_, ?_, ?_⟩ <;>
      simp [Vec3.smul_x, Vec3.smul_y, Vec3.smul_z, Vec3.add_x, Vec3.add_y,
        Vec3.add_z, Vec3.sub_x, Vec3.sub_y, Vec3.sub_z] <;>
      ring

/-- Claim C5: whenever the cross product of the two offsets from the
center vanishes (parallel or antipodal points, or a point at the
center), the blend takes the documented deterministic fallback branch
and returns the direct linear blend of the two offsets — a well-defined
finite point of the model. -/
theorem c5_degenerate_fallback (c p1 p2 : Vec3) (w : ℝ)
    (hdeg : Vec3.cross (p1 - c) (p2 - c) = 0) :
    sphericalBlend c p1 p2 w = c + ((1 - w) • (p1 - c) + w • (p2 - c)) := by
  have hc : Vec3.cross (unitFrom c p1) (unitFrom c p2) = 0 := by
    unfold unitFrom
    rw [Vec3.cross_smul_left, Vec3.cross_smul_right, hdeg,
      Vec3.smul_zero_vec, Vec3.smul_zero_vec]
  rw [sphericalBlend, if_pos hc]

/-- Helper: the spherical pairwise blend returns the first point at
weight 0 and the second at weight 1, for points distinct from the
center, in both the geodesic branch and the degenerate fallback
branch. -/
theorem sphericalBlend_boundary (c p1 p2 : Vec3) (h1 : p1 ≠ c) (h2 : p2 ≠ c) :
    sphericalBlend c p1 p2 0 = p1 ∧ sphericalBlend c p1 p2 1 = p2 := by
  have hu1 := unitFrom_dot_self c p1 h1
  have hu2 := unitFrom_dot_self c p2 h2
  by_cases hc : Vec3.cross (unitFrom c p1) (unitFrom c p2) = 0
  · constructor
    · rw [sphericalBlend, if_pos hc, Vec3.eq_iff]
      refine ⟨?_, ?_, ?_⟩ <;>
        simp [Vec3.add_x, Vec3.add_y, Vec3.add_z, Vec3.smul_x, Vec3.smul_y,
          Vec3.smul_z, Vec3.sub_x, Vec3.sub_y, Vec3.sub_z] <;>
        ring
    · rw [sphericalBlend, if_pos hc, Vec3.eq_iff]
      refine ⟨?_, ?_, ?_⟩ <;>
        simp [Vec3.add_x, Vec3.add_y, Vec3.add_z, Vec3.smul_x, Vec3.smul_y,
          Vec3.smul_z, Vec3.sub_x, Vec3.sub_y, Vec3.sub_z] <;>
        ring
  · constructor
    · rw [sphericalBlend, if_neg hc, rodrigues_zero]
      have hr : (1 - (0 : ℝ)) * Vec3.norm (p1 - c) +
          0 * Vec3.norm (p2 - c) = Vec3.norm (p1 - c) := by ring
      rw [hr, norm_smul_unitFrom c p1 h1, Vec3.center_add_offset]
    · rw [sphericalBlend, if_neg hc, rodrigues_one _ _ hu1 hu2 hc]
      have hr : (1 - (1 : ℝ)) * Vec3.norm (p1 - c) +
          1 * Vec3.norm (p2 - c) = Vec3.norm (p2 - c) := by ring
      rw [hr, norm_smul_unitFrom c p2 h2, Vec3.center_add_offset]

/-- Helper: the unit offset of the first standard basis point from the
origin is the point itself. -/
theorem unitFrom_ex : unitFrom 0 ⟨1, 0, 0⟩ = ⟨1, 0, 0⟩ := by
  have hd : Vec3.dot ((⟨1, 0, 0⟩ : Vec3) - 0) ((⟨1, 0, 0⟩ : Vec3) - 0) = 1 := by
    simp [Vec3.dot, Vec3.sub_x, Vec3.sub_y, Vec3.sub_z, Vec3.zero_x,
      Vec3.zero_y, Vec3.zero_z]
  have hn : Vec3.norm ((⟨1, 0, 0⟩ : Vec3) - 0) = 1 := by
    unfold Vec3.norm
    rw [hd, Real.sqrt_one]
  unfold unitFrom
  rw [hn, Vec3.eq_iff]
  refine ⟨?_, ?_, ?_⟩ <;>
    simp [Vec3.smul_x, Vec3.smul_y, Vec3.smul_z, Vec3.sub_x, Vec3.sub_y,
      Vec3.sub_z, Vec3.zero_x, Vec3.zero_y, Vec3.zero_z]

/-- Helper: the unit offset of the second standard basis point from the
origin is the point itself. -/
theorem unitFrom_ey : unitFrom 0 ⟨0, 1, 0⟩ = ⟨0, 1, 0⟩ := by
  have hd : Vec3.dot ((⟨0, 1, 0⟩ : Vec3) - 0) ((⟨0, 1, 0⟩ : Vec3) - 0) = 1 := by
    simp [Vec3.dot, Vec3.sub_x, Vec3.sub_y, Vec3.sub_z, Vec3.zero_x,
      Vec3.zero_y, Vec3.zero_z]
  have hn : Vec3.norm ((⟨0, 1, 0⟩ : Vec3) - 0) = 1 := by
    unfold Vec3.norm
    rw [hd, Real.sqrt_one]
  unfold unitFrom
  rw [hn, Vec3.eq_iff]
  refine ⟨?_, ?_, ?_⟩ <;>
    simp [Vec3.smul_x, Vec3.smul_y, Vec3.smul_z, Vec3.sub_x, Vec3.sub_y,
      Vec3.sub_z, Vec3.zero_x, Vec3.zero_y, Vec3.zero_z]

/-- Helper: the first basis point differs from the origin. -/
theorem ex_ne_zero : (⟨1, 0, 0⟩ : Vec3) ≠ 0 := by
  intro h
  rw [Vec3.eq_iff] at h
  have := h.1
  norm_num [Vec3.zero_x] at this

/-- Helper: the second basis point differs from the origin. -/
theorem ey_ne_zero : (⟨0, 1, 0⟩ : Vec3) ≠ 0 := by
  intro h
  rw [Vec3.eq_iff] at h
  have := h.2.1
  norm_num [Vec3.zero_y] at this

/-- Helper: the two basis directions have nonvanishing cross product. -/
theorem cross_ex_ey_ne_zero :
    Vec3.cross (unitFrom 0 ⟨1, 0, 0⟩) (unitFrom 0 ⟨0, 1, 0⟩) ≠ 0 := by
  rw [unitFrom_ex, unitFrom_ey]
  intro h
  rw [Vec3.eq_iff] at h
  have := h.2.2
  norm_num [Vec3.cross, Vec3.zero_z] at this

/-- Claim C2 witness: at the origin-centered unit points (1,0,0) and
(0,1,0) with weight 1/2, the hypotheses hold and the distance of the
blend from the center equals the interpolated radius. -/
theorem c2_witness :
    Vec3.norm (sphericalBlend 0 ⟨1, 0, 0⟩ ⟨0, 1, 0⟩ (1 / 2) - 0) =
      (1 - 1 / 2) * Vec3.norm ((⟨1, 0, 0⟩ : Vec3) - 0) +
        (1 / 2) * Vec3.norm ((⟨0, 1, 0⟩ : Vec3) - 0) :=
  (c2_pairwise_geodesic 0 ⟨1, 0, 0⟩ ⟨0, 1, 0⟩ (1 / 2) ex_ne_zero ey_ne_zero
    cross_ex_ey_ne_zero (by norm_num) (by norm_num)).2.1

/-- Claim C5 witness: the antipodal pair (1,0,0) and (-1,0,0) about the
origin has vanishing cross product and the blend at weight 1/2 is the
documented linear fallback. -/
theorem c5_witness :
    Vec3.cross ((⟨1, 0, 0⟩ : Vec3) - 0) ((⟨-1, 0, 0⟩ : Vec3) - 0) = 0 ∧
    sphericalBlend 0 ⟨1, 0, 0⟩ ⟨-1, 0, 0⟩ (1 / 2) =
      0 + (((1 : ℝ) - 1 / 2) • ((⟨1, 0, 0⟩ : Vec3) - 0) +
        ((1 : ℝ) / 2) • ((⟨-1, 0, 0⟩ : Vec3) - 0)) := by
  have hdeg : Vec3.cross ((⟨1, 0, 0⟩ : Vec3) - 0) ((⟨-1, 0, 0⟩ : Vec3) - 0)
      = 0 := by
    rw [Vec3.eq_iff]
    refine ⟨?_, ?_, ?_⟩ <;>
      simp [Vec3.cross, Vec3.sub_x, Vec3.sub_y, Vec3.sub_z, Vec3.zero_x,
        Vec3.zero_y, Vec3.zero_z]
  exact ⟨hdeg, c5_degenerate_fallback 0 ⟨1, 0, 0⟩ ⟨-1, 0, 0⟩ (1 / 2) hdeg⟩


/-- A constructed FunctionManifold: it retains exactly the two
user-supplied maps; queries apply them directly with no further
checking. -/
structure FunctionManifoldModel where
  push_forward : ℚ → ℚ
  pull_back : ℚ → ℚ

/-- Modelled from the spec: the construction-time inverse-consistency
check of FunctionManifold (constructor declared at manifold_lib.h lines
325-328 with its tolerance member at lines 416-421; the constructor body
is not under src/).  Both compositions are compared with the identity on
the supplied representative sample points, at the configurable relative
tolerance. -/
def inverseCheck (tol : ℚ) (pf pb : ℚ → ℚ)
    (chartSamples ambientSamples : List ℚ) : Bool :=
  chartSamples.all (fun s => decide (|pb (pf s) - s| ≤ tol * max 1 |s|)) &&
    ambientSamples.all (fun s => decide (|pf (pb s) - s| ≤ tol * max 1 |s|))

/-- Modelled from the spec: the FunctionManifold constructor.  In the
debug configuration a failing inverse check is fatal at construction
time (`none`); in the non-debug configuration the check is skipped; a
successful construction stores the two maps unchanged. -/
def mkFunctionManifold (debug : Bool) (pf pb : ℚ → ℚ)
    (chartSamples ambientSamples : List ℚ) (tol : ℚ) :
    Option FunctionManifoldModel :=
  if debug && !(inverseCheck tol pf pb chartSamples ambientSamples) then
    none
  else some ⟨pf, pb⟩

/-- Claim C7: in debug mode a failing inverse-consistency check is fatal
at construction time; in non-debug mode the check is skipped; and any
successfully constructed manifold answers queries with the unchanged
user maps, so the failure is never deferred to query time. -/
theorem c7_construction_check (debug : Bool) (pf pb : ℚ → ℚ)
    (cs sa : List ℚ) (tol : ℚ) :
    (debug = true → inverseCheck tol pf pb cs sa = false →
      mkFunctionManifold debug pf pb cs sa tol = none) ∧
    (debug = false →
      mkFunctionManifold debug pf pb cs sa tol = some ⟨pf, pb⟩) ∧
    (∀ m, mkFunctionManifold debug pf pb cs sa tol = some m →
      m.push_forward = pf ∧ m.pull_back = pb) := by
  refine ⟨?_, ?_, ?_⟩
  · rintro rfl h
    rw [mkFunctionManifold, if_pos (by rw [h]; rfl)]
  · rintro rfl
    rw [mkFunctionManifold, if_neg (by simp)]
  · intro m hm
    rw [mkFunctionManifold] at hm
    by_cases hcond :
        (debug && !(inverseCheck tol pf pb cs sa)) = true
    · rw [if_pos hcond] at hm
      exact absurd hm (by simp)
    · rw [if_neg hcond] at hm
      obtain rfl : FunctionManifoldModel.mk pf pb = m := Option.some.inj hm
      exact ⟨rfl, rfl⟩

/-- Claim C7 witness: the pair (s + 1, identity) fails the inverse check
on sample point 5 at tolerance 1e-10, and construction in debug mode is
rejected. -/
theorem c7_witness :
    inverseCheck (1 / 10 ^ 10) (fun s => s + 1) (fun s => s) [5] [5]
      = false ∧
    mkFunctionManifold true (fun s => s + 1) (fun s => s) [5] [5]
      (1 / 10 ^ 10) = none := by
  have hchk : inverseCheck (1 / 10 ^ 10) (fun s => s + 1) (fun s => s)
      [5] [5] = false := by
    rw [inverseCheck]
    simp only [List.all_cons, List.all_nil, Bool.and_true, Bool.and_eq_false_iff,
      decide_eq_false_iff_not]
    left
    norm_num
  exact ⟨hchk,
    (c7_construction_check true (fun s => s + 1) (fun s => s) [5] [5]
      (1 / 10 ^ 10)).1 rfl hchk⟩

/-- Modelled from the spec: branch selection on one periodic chart axis
(spec section 4.1; the chart-default blend bodies are not under src/).
A non-periodic axis (period 0) is left unshifted; a periodic axis shifts
the second coordinate by the whole number of periods bringing it nearest
the first coordinate. -/
def periodShift (p r c : ℚ) : ℚ :=
  if p = 0 then c else c + p * ((round ((r - c) / p) : ℤ) : ℚ)

/-- Modelled from the spec: apply the per-axis periodicity shift of
section 4.1 to the second chart point, axis by axis, using the first
chart point as the reference branch. -/
def adjustChart : List ℚ → List ℚ → List ℚ → List ℚ
  | p :: ps, r :: rs, c :: cs => periodShift p r c :: adjustChart ps rs cs
  | _, _, _ => []

/-- Modelled from the spec: componentwise linear interpolation of chart
coordinates with the weight applied to the second point (spec section
4.1). -/
def chartLerp (w : ℚ) : List ℚ → List ℚ → List ℚ
  | x :: xs, y :: ys => (x + w * (y - x)) :: chartLerp w xs ys
  | _, _ => []

/-- Modelled from the spec: the default chart-based pairwise
`get_new_point(point_a, point_b, weight)` of section 4.1, shared by the
chart abstraction and by the polar, user-function and torus variants:
pull back both points, shift the second chart point by whole periods
along each periodic axis toward the first, linearly interpolate the
chart coordinates with the weight on the second point, and push the
result forward. -/
def chartGetNewPoint {A : Type u} (pushF : List ℚ → A) (pullB : A → List ℚ)
    (per : List ℚ) (a b : A) (w : ℚ) : A :=
  pushF (chartLerp w (pullB a) (adjustChart per (pullB a) (pullB b)))

/-- Modelled from the spec: the pairwise blend of the cylindrical
variant (spec section 4.4; no body under src/): decompose each offset
from the point on the axis into the axial coordinate along the unit
axis direction d and the radial offset orthogonal to it, blend the
axial coordinates linearly, blend the radial offsets with the spherical
logic in the radial plane about the axis, and recombine. -/
noncomputable def cylindricalBlend (d o a b : Vec3) (w : ℝ) : Vec3 :=
  o + (Vec3.dot (a - o) d +
      w * (Vec3.dot (b - o) d - Vec3.dot (a - o) d)) • d +
    sphericalBlend 0 ((a - o) - Vec3.dot (a - o) d • d)
      ((b - o) - Vec3.dot (b - o) d • d) w

/-- Helper: the periodicity adjustment preserves the chart dimension. -/
theorem adjustChart_length (ps rs cs : List ℚ) (h1 : ps.length = cs.length)
    (h2 : rs.length = cs.length) :
    (adjustChart ps rs cs).length = cs.length := by
  induction ps generalizing rs cs with
  | nil =>
    cases cs with
    | nil =>
      cases rs with
      | nil => rfl
      | cons r rs => simp at h2
    | cons c cs => simp at h1
  | cons p ps ih =>
    cases cs with
    | nil => simp at h1
    | cons c cs =>
      cases rs with
      | nil => simp at h2
      | cons r rs =>
        rw [adjustChart]
        simp only [List.length_cons] at h1 h2 ⊢
        rw [ih rs cs (by omega) (by omega)]

/-- Helper: chart interpolation at weight 0 returns the first chart
point when the dimensions agree. -/
theorem chartLerp_zero (xs ys : List ℚ) (h : ys.length = xs.length) :
    chartLerp 0 xs ys = xs := by
  induction xs generalizing ys with
  | nil =>
    cases ys with
    | nil => rfl
    | cons y ys => simp at h
  | cons x xs ih =>
    cases ys with
    | nil => simp at h
    | cons y ys =>
      rw [chartLerp]
      simp only [List.length_cons] at h
      rw [show x + 0 * (y - x) = x by ring, ih ys (by omega)]

/-- Helper: chart interpolation at weight 1 returns the second chart
point when the dimensions agree. -/
theorem chartLerp_one (xs ys : List ℚ) (h : ys.length = xs.length) :
    chartLerp 1 xs ys = ys := by
  induction xs generalizing ys with
  | nil =>
    cases ys with
    | nil => rfl
    | cons y ys => simp at h
  | cons x xs ih =>
    cases ys with
    | nil => simp at h
    | cons y ys =>
      rw [chartLerp]
      simp only [List.length_cons] at h
      rw [show x + 1 * (y - x) = y by ring, ih ys (by omega)]

/-- Claim C6: for every manifold variant the pairwise blend returns the
first point at weight 0 and the second at weight 1: the spherical direct
geodesic blend (in both its branches, for points away from the singular
center); the chart-default blend shared by the chart abstraction and by
the polar, user-function and torus variants, under the chart contract
(exact round trips on the two points and push_forward invariant under
the whole-period branch shift); and the cylindrical axial/radial blend,
for points off the singular axis. -/
theorem c6_boundary_weights_all_variants :
    (∀ c p1 p2 : Vec3, p1 ≠ c → p2 ≠ c →
      sphericalBlend c p1 p2 0 = p1 ∧ sphericalBlend c p1 p2 1 = p2) ∧
    (∀ (A : Type u) (pushF : List ℚ → A) (pullB : A → List ℚ)
      (per : List ℚ) (a b : A),
      per.length = (pullB a).length →
      (pullB b).length = (pullB a).length →
      pushF (pullB a) = a →
      pushF (pullB b) = b →
      pushF (adjustChart per (pullB a) (pullB b)) = pushF (pullB b) →
      chartGetNewPoint pushF pullB per a b 0 = a ∧
        chartGetNewPoint pushF pullB per a b 1 = b) ∧
    (∀ d o a b : Vec3,
      (a - o) - Vec3.dot (a - o) d • d ≠ 0 →
      (b - o) - Vec3.dot (b - o) d • d ≠ 0 →
      cylindricalBlend d o a b 0 = a ∧ cylindricalBlend d o a b 1 = b) := by
  refine ⟨sphericalBlend_boundary, ?_, ?_⟩
  · intro A pushF pullB per a b hlp hlb hra hrb hshift
    have hlen : (adjustChart per (pullB a) (pullB b)).length =
        (pullB a).length := by
      rw [show (pullB a).length = (pullB b).length from hlb.symm] at hlp ⊢
      exact adjustChart_length per (pullB a) (pullB b) hlp hlb.symm
    constructor
    · rw [chartGetNewPoint, chartLerp_zero _ _ hlen, hra]
    · rw [chartGetNewPoint, chartLerp_one _ _ hlen, hshift, hrb]
  · intro d o a b hra hrb
    have h := sphericalBlend_boundary 0
      ((a - o) - Vec3.dot (a - o) d • d)
      ((b - o) - Vec3.dot (b - o) d • d) hra hrb
    constructor
    · rw [cylindricalBlend, h.1, Vec3.eq_iff]
      refine ⟨?_, ?_, ?_⟩ <;>
        simp [Vec3.dot, Vec3.add_x, Vec3.add_y, Vec3.add_z, Vec3.sub_x,
          Vec3.sub_y, Vec3.sub_z, Vec3.smul_x, Vec3.smul_y, Vec3.smul_z] <;>
        ring
    · rw [cylindricalBlend, h.2, Vec3.eq_iff]
      refine ⟨?_, ?_, ?_⟩ <;>
        simp [Vec3.dot, Vec3.add_x, Vec3.add_y, Vec3.add_z, Vec3.sub_x,
          Vec3.sub_y, Vec3.sub_z, Vec3.smul_x, Vec3.smul_y, Vec3.smul_z] <;>
        ring

/-- Claim C6 witness: concrete boundary-weight instances for each
variant — the spherical blend at the origin-centered unit points,
the chart-default blend with a one-axis chart (push = head, pull =
singleton, non-periodic axis) at the points 3 and 4, and the
cylindrical blend about the z axis at the two unit points off the
axis. -/
theorem c6_witness :
    (sphericalBlend 0 ⟨1, 0, 0⟩ ⟨0, 1, 0⟩ 0 = ⟨1, 0, 0⟩ ∧
      sphericalBlend 0 ⟨1, 0, 0⟩ ⟨0, 1, 0⟩ 1 = ⟨0, 1, 0⟩) ∧
    (chartGetNewPoint (fun l => l.headD 0) (fun q => [q]) [0]
        (3 : ℚ) 4 0 = 3 ∧
      chartGetNewPoint (fun l => l.headD 0) (fun q => [q]) [0]
        (3 : ℚ) 4 1 = 4) ∧
    (cylindricalBlend ⟨0, 0, 1⟩ 0 ⟨1, 0, 0⟩ ⟨0, 1, 0⟩ 0 = ⟨1, 0, 0⟩ ∧
      cylindricalBlend ⟨0, 0, 1⟩ 0 ⟨1, 0, 0⟩ ⟨0, 1, 0⟩ 1 = ⟨0, 1, 0⟩) := by
  obtain ⟨hsph, hchart, hcyl⟩ := c6_boundary_weights_all_variants
  refine ⟨hsph 0 ⟨1, 0, 0⟩ ⟨0, 1, 0⟩ ex_ne_zero ey_ne_zero, ?_, ?_⟩
  · refine hchart ℚ (fun l => l.headD 0) (fun q => [q]) [0] 3 4
      rfl rfl rfl rfl ?_
    simp [adjustChart, periodShift]
  · have hra : ((⟨1, 0, 0⟩ : Vec3) - 0) -
        Vec3.dot ((⟨1, 0, 0⟩ : Vec3) - 0) ⟨0, 0, 1⟩ • (⟨0, 0, 1⟩ : Vec3)
        ≠ 0 := by
      intro h
      rw [Vec3.eq_iff] at h
      have := h.1
      norm_num [Vec3.dot, Vec3.sub_x, Vec3.sub_y, Vec3.sub_z, Vec3.smul_x,
        Vec3.zero_x, Vec3.zero_y, Vec3.zero_z] at this
    have hrb : ((⟨0, 1, 0⟩ : Vec3) - 0) -
        Vec3.dot ((⟨0, 1, 0⟩ : Vec3) - 0) ⟨0, 0, 1⟩ • (⟨0, 0, 1⟩ : Vec3)
        ≠ 0 := by
      intro h
      rw [Vec3.eq_iff] at h
      have := h.2.1
      norm_num [Vec3.dot, Vec3.sub_x, Vec3.sub_y, Vec3.sub_z, Vec3.smul_y,
        Vec3.zero_x, Vec3.zero_y, Vec3.zero_z] at this
    exact hcyl ⟨0, 0, 1⟩ 0 ⟨1, 0, 0⟩ ⟨0, 1, 0⟩ hra hrb
